import Mathlib

/-!
Shallow embedding of the Bioaerosol-Dashboard automation core
(`Automate.py` together with `Constants.py`): the history merge /
dedup / sort / cap pipeline, the long-to-wide batch transform, history
loading, atomic persistence, and the per-iteration control flow of the
ingestion loop.

Dates, times and classification labels are strings, compared
lexicographically by code point exactly as pandas sorts object columns;
concentrations are rationals standing for the numeric `conc` values.
-/

namespace Bioaerosol

/-! ## String and key ordering

`sort_values(by=['Date', 'Time'])` orders string columns
lexicographically by code point; a key is the (Date, Time) pair. -/

def strLt (s t : String) : Prop := s.data < t.data

instance (s t : String) : Decidable (strLt s t) :=
  inferInstanceAs (Decidable (s.data < t.data))

abbrev HistKey := String × String

def keyLt (a b : HistKey) : Prop :=
  strLt a.1 b.1 ∨ (a.1 = b.1 ∧ strLt a.2 b.2)

def keyLe (a b : HistKey) : Prop := keyLt a b ∨ a = b

instance (a b : HistKey) : Decidable (keyLt a b) := by
  unfold keyLt; infer_instance

instance (a b : HistKey) : Decidable (keyLe a b) := by
  unfold keyLe; infer_instance

theorem str_eq_of_data_eq {s t : String} (h : s.data = t.data) : s = t := by
  cases s; exact congrArg String.mk h

theorem strLt_trans {a b c : String} (h1 : strLt a b) (h2 : strLt b c) :
    strLt a c := lt_trans h1 h2

theorem strLt_asymm {a b : String} (h : strLt a b) : ¬ strLt b a := lt_asymm h

theorem strLt_trichotomy (a b : String) : strLt a b ∨ a = b ∨ strLt b a := by
  rcases lt_trichotomy a.data b.data with h | h | h
  · exact Or.inl h
  · exact Or.inr (Or.inl (str_eq_of_data_eq h))
  · exact Or.inr (Or.inr h)

theorem keyLt_trans {a b c : HistKey} (h1 : keyLt a b) (h2 : keyLt b c) :
    keyLt a c := by
  rcases h1 with h1 | ⟨e1, h1⟩ <;> rcases h2 with h2 | ⟨e2, h2⟩
  · exact Or.inl (strLt_trans h1 h2)
  · exact Or.inl (e2 ▸ h1)
  · exact Or.inl (by rw [e1]; exact h2)
  · exact Or.inr ⟨e1.trans e2, strLt_trans h1 h2⟩

theorem keyLt_asymm {a b : HistKey} (h : keyLt a b) : ¬ keyLt b a := by
  rcases h with h | ⟨e, h⟩ <;> rintro (h2 | ⟨e2, h2⟩)
  · exact strLt_asymm h h2
  · rw [e2] at h; exact strLt_asymm h h
  · rw [e] at h2; exact strLt_asymm h2 h2
  · exact strLt_asymm h h2

theorem keyLt_trichotomy (a b : HistKey) : keyLt a b ∨ a = b ∨ keyLt b a := by
  rcases strLt_trichotomy a.1 b.1 with h | h | h
  · exact Or.inl (Or.inl h)
  · rcases strLt_trichotomy a.2 b.2 with h2 | h2 | h2
    · exact Or.inl (Or.inr ⟨h, h2⟩)
    · refine Or.inr (Or.inl ?_)
      rcases a with ⟨a1, a2⟩; rcases b with ⟨b1, b2⟩
      simp only at h h2; rw [h, h2]
    · exact Or.inr (Or.inr (Or.inr ⟨h.symm, h2⟩))
  · exact Or.inr (Or.inr (Or.inl h))

theorem keyLe_total (a b : HistKey) : keyLe a b ∨ keyLe b a := by
  rcases keyLt_trichotomy a b with h | h | h
  · exact Or.inl (Or.inl h)
  · exact Or.inl (Or.inr h)
  · exact Or.inr (Or.inl h)

theorem keyLe_trans {a b c : HistKey} (h1 : keyLe a b) (h2 : keyLe b c) :
    keyLe a c := by
  rcases h1 with h1 | rfl
  · rcases h2 with h2 | rfl
    · exact Or.inl (keyLt_trans h1 h2)
    · exact Or.inl h1
  · exact h2

theorem keyLt_of_keyLe_of_ne {a b : HistKey} (h : keyLe a b) (hne : a ≠ b) :
    keyLt a b := h.resolve_right hne

/-! ## Measurement rows (the canonical wide schema of the History Store) -/

structure Row where
  Date : String
  Time : String
  Bacteria : ℚ
  Fungi : ℚ
  Pollen : ℚ
  PM2_5 : ℚ
  PM10 : ℚ
deriving DecidableEq

def keyOf (r : Row) : HistKey := (r.Date, r.Time)

def rowLe (r s : Row) : Prop := keyLe (keyOf r) (keyOf s)

def rowLt (r s : Row) : Prop := keyLt (keyOf r) (keyOf s)

instance (r s : Row) : Decidable (rowLe r s) := by unfold rowLe; infer_instance

instance (r s : Row) : Decidable (rowLt r s) := by unfold rowLt; infer_instance

instance : IsTotal Row rowLe := ⟨fun a b => keyLe_total (keyOf a) (keyOf b)⟩

instance : IsTrans Row rowLe := ⟨fun _ _ _ h1 h2 => keyLe_trans h1 h2⟩

instance : IsTrans Row rowLt := ⟨fun _ _ _ h1 h2 => keyLt_trans h1 h2⟩

instance : IsAntisymm Row rowLt :=
  ⟨fun _ _ h1 h2 => absurd h2 (keyLt_asymm h1)⟩

/-! ## Merge, dedup and cap (Automate.py lines 122-130)

`pd.concat` followed by `drop_duplicates(subset=['Date', 'Time'],
keep='last')` keeps, for each key, the last row carrying it, in order;
`sort_values(by=['Date', 'Time'])` then sorts ascending by the key
(keys are unique at that point, so any correct sort yields the same
list); `iloc[-5000:]` keeps the trailing 5000 rows when the cap is
exceeded. -/

def keepLast : List Row → List Row
  | [] => []
  | r :: rest =>
    if rest.any fun s => decide (keyOf s = keyOf r) then keepLast rest
    else r :: keepLast rest

def sortRows (l : List Row) : List Row := List.insertionSort rowLe l

def merge (current incoming : List Row) : List Row :=
  sortRows (keepLast (current ++ incoming))

def rowCap : Nat := 5000

def capTable (l : List Row) : List Row :=
  if rowCap < l.length then l.drop (l.length - rowCap) else l

/-! ## Basic facts about keepLast and the sort -/

theorem mem_of_mem_keepLast {l : List Row} {r : Row} (h : r ∈ keepLast l) :
    r ∈ l := by
  induction l with
  | nil => simp [keepLast] at h
  | cons a t ih =>
    by_cases hc : (t.any fun s => decide (keyOf s = keyOf a)) = true
    · rw [keepLast, if_pos hc] at h
      exact List.mem_cons_of_mem a (ih h)
    · rw [keepLast, if_neg hc] at h
      rcases List.mem_cons.mp h with h | h
      · exact h ▸ List.mem_cons_self a t
      · exact List.mem_cons_of_mem a (ih h)

theorem keys_pairwise_keepLast (l : List Row) :
    (keepLast l).Pairwise fun a b => keyOf a ≠ keyOf b := by
  induction l with
  | nil => simp [keepLast]
  | cons a t ih =>
    by_cases hc : (t.any fun s => decide (keyOf s = keyOf a)) = true
    · rw [keepLast, if_pos hc]; exact ih
    · rw [keepLast, if_neg hc]
      refine List.pairwise_cons.mpr ⟨?_, ih⟩
      intro b hb heq
      exact hc (List.any_eq_true.mpr
        ⟨b, mem_of_mem_keepLast hb, decide_eq_true heq.symm⟩)

theorem sortRows_perm (l : List Row) : (sortRows l).Perm l :=
  List.perm_insertionSort rowLe l

theorem mem_sortRows {l : List Row} {r : Row} : r ∈ sortRows l ↔ r ∈ l :=
  (sortRows_perm l).mem_iff

theorem sortRows_sorted (l : List Row) : (sortRows l).Pairwise rowLe :=
  List.sorted_insertionSort rowLe l

/-! ## The last row carrying a key

`lastWith l k` is the last row of `l` whose (Date, Time) pair is `k`;
it is the row that `drop_duplicates(keep='last')` retains for key `k`. -/

def lastWith : List Row → HistKey → Option Row
  | [], _ => none
  | r :: rest, k =>
    match lastWith rest k with
    | some s => some s
    | none => if keyOf r = k then some r else none

theorem lastWith_eq_none {l : List Row} {k : HistKey} :
    lastWith l k = none ↔ ∀ r ∈ l, keyOf r ≠ k := by
  induction l with
  | nil => simp [lastWith]
  | cons a t ih =>
    rw [lastWith]
    cases ht : lastWith t k with
    | some s =>
      simp only []
      constructor
      · intro h; exact absurd h (by simp)
      · intro h
        rcases (ih.not.mp (by simp [ht])) with h2
        exfalso
        apply h2
        intro r hr
        exact h r (List.mem_cons_of_mem a hr)
    | none =>
      by_cases hk : keyOf a = k
      · simp only [if_pos hk]
        constructor
        · intro h; exact absurd h (by simp)
        · intro h; exact absurd hk (h a (List.mem_cons_self a t))
      · simp only [if_neg hk]
        constructor
        · intro _ r hr
          rcases List.mem_cons.mp hr with rfl | hr
          · exact hk
          · exact ih.mp ht r hr
        · intro _; trivial

theorem lastWith_mem {l : List Row} {k : HistKey} {s : Row}
    (h : lastWith l k = some s) : s ∈ l ∧ keyOf s = k := by
  induction l with
  | nil => simp [lastWith] at h
  | cons a t ih =>
    rw [lastWith] at h
    cases ht : lastWith t k with
    | some s2 =>
      rw [ht] at h
      obtain rfl : s2 = s := by simpa using h
      obtain ⟨h1, h2⟩ := ih ht
      exact ⟨List.mem_cons_of_mem a h1, h2⟩
    | none =>
      rw [ht] at h
      by_cases hk : keyOf a = k
      · rw [if_pos hk] at h
        obtain rfl : a = s := by simpa using h
        exact ⟨List.mem_cons_self a t, hk⟩
      · rw [if_neg hk] at h; simp at h

theorem lastWith_append (l1 l2 : List Row) (k : HistKey) :
    lastWith (l1 ++ l2) k =
      match lastWith l2 k with
      | some s => some s
      | none => lastWith l1 k := by
  induction l1 with
  | nil => cases h : lastWith l2 k <;> simp [lastWith, h]
  | cons a t ih =>
    rw [List.cons_append, lastWith, ih]
    cases h2 : lastWith l2 k with
    | some s => rfl
    | none => rfl

theorem mem_keepLast {l : List Row} {r : Row} :
    r ∈ keepLast l ↔ lastWith l (keyOf r) = some r := by
  induction l with
  | nil => simp [keepLast, lastWith]
  | cons a t ih =>
    by_cases hc : (t.any fun s => decide (keyOf s = keyOf a)) = true
    · rw [keepLast, if_pos hc, ih, lastWith]
      cases ht : lastWith t (keyOf r) with
      | some s => rfl
      | none =>
        by_cases hak : keyOf a = keyOf r
        · exfalso
          rcases List.any_eq_true.mp hc with ⟨b, hb, hbk⟩
          have hbk2 : keyOf b = keyOf a := of_decide_eq_true hbk
          exact lastWith_eq_none.mp ht b hb (hbk2.trans hak)
        · rw [if_neg hak]
    · rw [keepLast, if_neg hc]
      have hnone : ∀ b ∈ t, keyOf b ≠ keyOf a := fun b hb hbk =>
        hc (List.any_eq_true.mpr ⟨b, hb, decide_eq_true hbk⟩)
      by_cases hra : r = a
      · subst hra
        rw [lastWith, lastWith_eq_none.mpr hnone, if_pos rfl]
        simp
      · rw [lastWith]
        cases ht : lastWith t (keyOf r) with
        | some s =>
          rw [List.mem_cons, ih, ht]
          simp [hra]
        | none =>
          rw [List.mem_cons, ih, ht]
          by_cases hak : keyOf a = keyOf r
          · rw [if_pos hak]
            simp only [iff_iff_implies_and_implies]
            constructor
            · rintro (rfl | h)
              · rfl
              · exact absurd h (by simp)
            · intro h
              have ha2 : a = r := by simpa using h
              exact absurd ha2.symm hra
          · rw [if_neg hak]
            simp [hra]

theorem lastWith_of_keys_pairwise {l : List Row}
    (hl : l.Pairwise fun a b => keyOf a ≠ keyOf b) {r : Row} {k : HistKey} :
    lastWith l k = some r ↔ r ∈ l ∧ keyOf r = k := by
  constructor
  · exact lastWith_mem
  · rintro ⟨hr, rfl⟩
    induction l with
    | nil => simp at hr
    | cons a t ih =>
      rw [lastWith]
      rcases List.pairwise_cons.mp hl with ⟨ha, ht⟩
      rcases List.mem_cons.mp hr with rfl | hr
      · rw [lastWith_eq_none.mpr fun b hb => (ha b hb).symm, if_pos rfl]
      · rw [ih ht hr]

/-! ## Structure of a merged table -/

theorem mem_merge {c i : List Row} {r : Row} :
    r ∈ merge c i ↔ lastWith (c ++ i) (keyOf r) = some r := by
  rw [merge, mem_sortRows, mem_keepLast]

theorem merge_keys_pairwise (c i : List Row) :
    (merge c i).Pairwise fun a b => keyOf a ≠ keyOf b :=
  ((sortRows_perm (keepLast (c ++ i))).pairwise_iff
    fun h => h.symm).mpr (keys_pairwise_keepLast (c ++ i))

theorem merge_pairwise_rowLt (c i : List Row) :
    (merge c i).Pairwise rowLt :=
  ((sortRows_sorted (keepLast (c ++ i))).and (merge_keys_pairwise c i)).imp
    fun h => keyLt_of_keyLe_of_ne h.1 fun he => h.2 he

theorem merge_nodup (c i : List Row) : (merge c i).Nodup :=
  (merge_keys_pairwise c i).imp fun hne he => hne (congrArg keyOf he)

theorem pairwise_key_unique {l : List Row}
    (h : l.Pairwise fun a b => keyOf a ≠ keyOf b) {r s : Row}
    (hr : r ∈ l) (hs : s ∈ l) (hk : keyOf s = keyOf r) : s = r := by
  by_cases he : s = r
  · exact he
  · exact absurd hk (h.forall (by intro x y hne; exact hne.symm) hs hr he)

theorem capTable_pairwise {l : List Row} (h : l.Pairwise rowLt) :
    (capTable l).Pairwise rowLt := by
  unfold capTable
  split
  · exact h.drop
  · exact h

/-! ## Long-format batch rows and the pivot (Automate.py lines 85-117)

`pivot_table(index=['date', 'time'], columns='classification',
values='conc', fill_value=0)` groups by (date, time), aggregates
duplicate cells with the default mean, fills missing cells with 0, and
sorts the group keys ascending; the script then backfills any of
Bacteria / Fungi / Pollen absent as a whole column with 0.0, forces
PM2.5 / PM10 to 0.0 when absent, and projects to the canonical
seven-column set. -/

structure LongRow where
  date : String
  time : String
  classification : String
  conc : ℚ
deriving DecidableEq

def rowsAt (batch : List LongRow) (d t lbl : String) : List LongRow :=
  batch.filter fun r => decide (r.date = d ∧ r.time = t ∧ r.classification = lbl)

def cell (batch : List LongRow) (d t lbl : String) : ℚ :=
  let cs := (rowsAt batch d t lbl).map LongRow.conc
  if cs.isEmpty then 0 else cs.sum / (cs.length : ℚ)

def batchLabels (batch : List LongRow) : List String :=
  (batch.map LongRow.classification).dedup

def colValue (batch : List LongRow) (d t lbl : String) : ℚ :=
  if lbl ∈ batchLabels batch then cell batch d t lbl else 0

def sortKeys (ks : List HistKey) : List HistKey := List.insertionSort keyLe ks

def batchKeys (batch : List LongRow) : List HistKey :=
  sortKeys (batch.map fun r => (r.date, r.time)).dedup

def mkWideRow (batch : List LongRow) (k : HistKey) : Row where
  Date := k.1
  Time := k.2
  Bacteria := colValue batch k.1 k.2 "Bacteria"
  Fungi := colValue batch k.1 k.2 "Fungi"
  Pollen := colValue batch k.1 k.2 "Pollen"
  PM2_5 := colValue batch k.1 k.2 "PM2.5"
  PM10 := colValue batch k.1 k.2 "PM10"

def transform (batch : List LongRow) : List Row :=
  (batchKeys batch).map (mkWideRow batch)

/-! ## Loading the persisted history (load_existing_history, lines 10-21)

The persisted artifact is modelled as absent (`none`), unreadable
(read raises), or a raw table of column names and string cells. -/

structure RawTable where
  cols : List String
  cells : List (List String)
deriving DecidableEq

def historyColumns : List String :=
  ["Date", "Time", "Bacteria", "Fungi", "Pollen", "PM2.5", "PM10"]

def emptyHistory : RawTable where
  cols := historyColumns
  cells := []

def load_existing_history (file : Option (Except String RawTable)) :
    RawTable :=
  match file with
  | none => emptyHistory
  | some (Except.error _) => emptyHistory
  | some (Except.ok df) =>
    if "Date" ∈ df.cols ∧ "Time" ∈ df.cols then df else emptyHistory

/-! ## One iteration of the ingestion loop (Automate.py lines 50-154)

The environment fixes the outcome of the external effects of one
iteration: the R-script invocation (which either succeeds, exits
non-zero raising CalledProcessError — caught at line 70 — or fails to
launch, an exception not caught by that handler), whether pd.read_csv
raises, and whether the atomic replace in save_atomic succeeds.  The
state carries the in-memory master table, the content of the canonical
history file, and the staged batch output file.  The try block of
lines 80-143 is `iterBody`; an error carries the state as of the raise
point, and the handler of lines 145-148 catches it and continues. -/

structure Batch where
  cols : List String
  long : List LongRow
deriving DecidableEq

def requiredCols : List String := ["date", "time", "classification", "conc"]

def hasRequiredCols (cols : List String) : Bool :=
  requiredCols.all fun c => decide (c ∈ cols)

inductive InvokeResult where
  | ok
  | calledProcessError (stderr : String)
  | launchError (msg : String)
deriving DecidableEq

structure Env where
  invoke : InvokeResult
  readError : Option String
  saveOk : Bool
deriving DecidableEq

structure LoopState where
  master : List Row
  histFile : Option (List Row)
  outFile : Option Batch
deriving DecidableEq

inductive IterOutcome where
  | invokeFailed (stderr : String)
  | outputMissing
  | completed
  | exceptionCaught (msg : String)
  | fatal (msg : String)
deriving DecidableEq

def IterOutcome.isFatal : IterOutcome → Bool
  | .fatal _ => true
  | _ => false

/-- save_atomic (lines 30-34): write a temporary sibling then
`os.replace` it onto the canonical path; if the write fails the
canonical file keeps its previous content. -/
def save_atomic (df : List Row) (canonical : Option (List Row))
    (ok : Bool) : Option (List Row) :=
  if ok then some df else canonical

/-- The try block of lines 80-143, entered when the expected output
file exists, given its content `data`.  Mirrors the source order:
read, empty check, required-column check, pivot + merge + cap +
save_atomic, and `os.remove` of the staged file on every non-raising
path. -/
def iterBody (env : Env) (st : LoopState) (data : Batch) :
    Except (String × LoopState) LoopState :=
  match env.readError with
  | some msg => Except.error (msg, st)
  | none =>
    if data.long.isEmpty then
      Except.ok { st with outFile := none }
    else if hasRequiredCols data.cols then
      let newMaster := capTable (merge st.master (transform data.long))
      if env.saveOk then
        Except.ok { master := newMaster
                    histFile := save_atomic newMaster st.histFile true
                    outFile := none }
      else
        Except.error ("save failed",
          { master := newMaster
            histFile := save_atomic newMaster st.histFile false
            outFile := st.outFile })
    else
      Except.ok { st with outFile := none }

def runIteration (env : Env) (st : LoopState) : LoopState × IterOutcome :=
  match env.invoke with
  | InvokeResult.launchError msg => (st, IterOutcome.fatal msg)
  | InvokeResult.calledProcessError stderr => (st, IterOutcome.invokeFailed stderr)
  | InvokeResult.ok =>
    match st.outFile with
    | none => (st, IterOutcome.outputMissing)
    | some data =>
      match iterBody env st data with
      | Except.ok st2 => (st2, IterOutcome.completed)
      | Except.error (msg, st2) => (st2, IterOutcome.exceptionCaught msg)

/-! ## Claims about merge -/

theorem merge_again_mem {H B : List Row} {r : Row} :
    r ∈ merge (merge H B) B ↔ r ∈ merge H B := by
  rw [mem_merge, lastWith_append]
  cases hB : lastWith B (keyOf r) with
  | some s =>
    rw [mem_merge, lastWith_append, hB]
  | none =>
    rw [lastWith_of_keys_pairwise (merge_keys_pairwise H B)]
    constructor
    · exact fun h => h.1
    · exact fun h => ⟨h, rfl⟩

/-- Claim C6: merge is idempotent over its incoming batch: merging the
same batch again into the result of a merge yields an identical
table. -/
theorem merge_idempotent (H B : List Row) :
    merge (merge H B) B = merge H B :=
  List.eq_of_perm_of_sorted
    ((List.perm_ext_iff_of_nodup (merge_nodup (merge H B) B)
        (merge_nodup H B)).mpr fun _ => merge_again_mem)
    (merge_pairwise_rowLt (merge H B) B) (merge_pairwise_rowLt H B)

/-- Claim C1: merge concatenates the current and incoming row sets,
deduplicates by the (Date, Time) key keeping the incoming row on every
key conflict, and sorts by key; in particular an existing row
(D, T, 5, 5, 5, 0, 0) is overridden by an incoming (D, T, 7, 7, 7, 0, 0). -/
theorem merge_override_incoming :
    (∀ current incoming : List Row, ∀ r ∈ incoming,
        (∀ s ∈ incoming, keyOf s = keyOf r → s = r) →
        r ∈ merge current incoming ∧
          ∀ s ∈ merge current incoming, keyOf s = keyOf r → s = r) ∧
    ∀ D T : String,
      merge [⟨D, T, 5, 5, 5, 0, 0⟩] [⟨D, T, 7, 7, 7, 0, 0⟩] =
        [⟨D, T, 7, 7, 7, 0, 0⟩] := by
  constructor
  · intro current incoming r hr huniq
    have hmem : r ∈ merge current incoming := by
      rw [mem_merge, lastWith_append]
      cases hB : lastWith incoming (keyOf r) with
      | some s =>
        obtain ⟨hs, hks⟩ := lastWith_mem hB
        rw [huniq s hs hks]
      | none => exact absurd rfl (lastWith_eq_none.mp hB r hr)
    refine ⟨hmem, fun s hs hks => ?_⟩
    exact pairwise_key_unique (merge_keys_pairwise current incoming) hmem hs hks
  · intro D T
    have h1 : keepLast ([(⟨D, T, 5, 5, 5, 0, 0⟩ : Row)] ++
        [⟨D, T, 7, 7, 7, 0, 0⟩]) = [⟨D, T, 7, 7, 7, 0, 0⟩] := by
      simp [keepLast, keyOf]
    rw [merge, h1]
    exact List.perm_singleton.mp (sortRows_perm _)

/-- Witness for C1 at a concrete input. -/
theorem merge_override_incoming_witness :
    ((⟨"2024-01-01", "00:00", 7, 7, 7, 0, 0⟩ : Row) ∈
        merge [⟨"2024-01-01", "00:00", 5, 5, 5, 0, 0⟩]
          [⟨"2024-01-01", "00:00", 7, 7, 7, 0, 0⟩] ∧
      ∀ s ∈ merge [(⟨"2024-01-01", "00:00", 5, 5, 5, 0, 0⟩ : Row)]
          [⟨"2024-01-01", "00:00", 7, 7, 7, 0, 0⟩],
        keyOf s = keyOf (⟨"2024-01-01", "00:00", 7, 7, 7, 0, 0⟩ : Row) →
        s = ⟨"2024-01-01", "00:00", 7, 7, 7, 0, 0⟩) ∧
    merge [(⟨"2024-01-01", "00:00", 5, 5, 5, 0, 0⟩ : Row)]
        [⟨"2024-01-01", "00:00", 7, 7, 7, 0, 0⟩] =
      [⟨"2024-01-01", "00:00", 7, 7, 7, 0, 0⟩] :=
  ⟨merge_override_incoming.1 _ _ _ (List.mem_singleton.mpr rfl)
      (fun _ hs _ => List.mem_singleton.mp hs),
    merge_override_incoming.2 "2024-01-01" "00:00"⟩

/-- Claim C2: after every merge the table is strictly ascending by the
(Date, Time) key, hence no two rows share a key, and the invariant is
preserved by the subsequent cap, so it holds for the master table
after every mutation. -/
theorem merge_sorted_unique_key :
    ∀ current incoming : List Row,
      (merge current incoming).Pairwise rowLt ∧
      ((merge current incoming).Pairwise fun a b => keyOf a ≠ keyOf b) ∧
      (capTable (merge current incoming)).Pairwise rowLt :=
  fun c i =>
    ⟨merge_pairwise_rowLt c i, merge_keys_pairwise c i,
      capTable_pairwise (merge_pairwise_rowLt c i)⟩

/-- Claim C3: capping a (sorted, as the History Store invariant
guarantees at the cap site) table of more than 5000 rows keeps exactly
5000 rows, namely the key-largest ones — every evicted row is
key-smaller than every retained row — and a table at or below the cap
is unchanged. -/
theorem cap_retains_latest (rows : List Row)
    (hsorted : rows.Pairwise rowLt) (hlen : rowCap < rows.length) :
    (capTable rows).length = rowCap ∧
    (∀ r ∈ capTable rows, r ∈ rows) ∧
    (∀ r ∈ rows, r ∉ capTable rows → ∀ s ∈ capTable rows, rowLt r s) ∧
    ∀ l : List Row, l.length ≤ rowCap → capTable l = l := by
  have hcap : capTable rows = rows.drop (rows.length - rowCap) := by
    unfold capTable
    rw [if_pos hlen]
  refine ⟨?_, ?_, ?_, ?_⟩
  · rw [hcap, List.length_drop]
    omega
  · rw [hcap]
    exact fun r hr => List.drop_subset _ _ hr
  · intro r hr hnot s hs
    have hpw : (rows.take (rows.length - rowCap) ++
        rows.drop (rows.length - rowCap)).Pairwise rowLt := by
      rw [List.take_append_drop]
      exact hsorted
    obtain ⟨-, -, hcross⟩ := List.pairwise_append.mp hpw
    have hrtake : r ∈ rows.take (rows.length - rowCap) := by
      have := List.take_append_drop (rows.length - rowCap) rows
      rw [hcap] at hnot
      rcases List.mem_append.mp (this ▸ hr) with h | h
      · exact h
      · exact absurd h hnot
    exact hcross r hrtake s (hcap ▸ hs)
  · intro l hl
    unfold capTable
    rw [if_neg (by omega)]

/-! A concrete 5001-row sorted table for the cap witness: row n has
Time a string of n repetitions of a character, so keys are strictly
increasing in n. -/

def natStr (n : Nat) : String := String.mk (List.replicate n 'a')

def idxRow (n : Nat) : Row := ⟨"2024-01-01", natStr n, 0, 0, 0, 0, 0⟩

def bigRows : List Row := (List.range 5001).map idxRow

theorem natStr_lt {m n : Nat} (h : m < n) : strLt (natStr m) (natStr n) := by
  show (List.replicate m 'a') < List.replicate n 'a'
  induction m generalizing n with
  | zero =>
    cases n with
    | zero => omega
    | succ k => rw [List.replicate_succ]; exact List.Lex.nil
  | succ m ih =>
    cases n with
    | zero => omega
    | succ k =>
      rw [List.replicate_succ, List.replicate_succ]
      exact List.Lex.cons (ih (by omega))

theorem idxRow_lt {m n : Nat} (h : m < n) : rowLt (idxRow m) (idxRow n) :=
  Or.inr ⟨rfl, natStr_lt h⟩

theorem bigRows_pairwise : bigRows.Pairwise rowLt :=
  List.Pairwise.map idxRow (fun _ _ h => idxRow_lt h)
    (List.pairwise_lt_range 5001)

theorem bigRows_length : rowCap < bigRows.length := by
  rw [bigRows, List.length_map, List.length_range, rowCap]
  omega

/-- Witness for C3 at a concrete 5001-row sorted table. -/
theorem cap_retains_latest_witness :
    bigRows.Pairwise rowLt ∧ rowCap < bigRows.length ∧
    ((capTable bigRows).length = rowCap ∧
      (∀ r ∈ capTable bigRows, r ∈ bigRows) ∧
      (∀ r ∈ bigRows, r ∉ capTable bigRows →
        ∀ s ∈ capTable bigRows, rowLt r s) ∧
      ∀ l : List Row, l.length ≤ rowCap → capTable l = l) :=
  ⟨bigRows_pairwise, bigRows_length,
    cap_retains_latest bigRows bigRows_pairwise bigRows_length⟩

/-! ## Claims about the long-to-wide transform -/

theorem cell_of_rowsAt_nil {batch : List LongRow} {d t lbl : String}
    (h : rowsAt batch d t lbl = []) : cell batch d t lbl = 0 := by
  rw [cell, h]
  simp

theorem colValue_eq_cell (batch : List LongRow) (d t lbl : String) :
    colValue batch d t lbl = cell batch d t lbl := by
  rw [colValue]
  by_cases hm : lbl ∈ batchLabels batch
  · rw [if_pos hm]
  · rw [if_neg hm]
    have hnil : rowsAt batch d t lbl = [] := by
      rw [rowsAt, List.filter_eq_nil_iff]
      intro r hr
      simp only [decide_eq_true_eq, not_and]
      intro _ _ hcl
      exact hm (List.mem_dedup.mpr (List.mem_map.mpr ⟨r, hr, hcl⟩))
    exact (cell_of_rowsAt_nil hnil).symm

/-- Claim C4: the transform pivots by (date, time), fills labels
missing for a timestamp with 0 and backfills columns absent across the
whole batch with 0.0 (the two coincide: a named column's value is
always the pivot cell, which is 0 whenever no long row feeds it, and
PM2.5 / PM10 are forced to 0.0 when absent), projects to the canonical
seven fields, and maps the example batch to the example wide row. -/
theorem transform_pivot_fill_project :
    (∀ batch : List LongRow, ∀ d t lbl : String,
        colValue batch d t lbl = cell batch d t lbl) ∧
    (∀ batch : List LongRow, ∀ d t lbl : String,
        rowsAt batch d t lbl = [] → colValue batch d t lbl = 0) ∧
    transform [⟨"2024-01-01", "00:00", "Bacteria", 10⟩,
        ⟨"2024-01-01", "00:00", "Fungi", 3⟩] =
      [⟨"2024-01-01", "00:00", 10, 3, 0, 0, 0⟩] := by
  refine ⟨colValue_eq_cell, ?_, ?_⟩
  · intro batch d t lbl h
    rw [colValue_eq_cell]
    exact cell_of_rowsAt_nil h
  · have hk : batchKeys [⟨"2024-01-01", "00:00", "Bacteria", (10 : ℚ)⟩,
        ⟨"2024-01-01", "00:00", "Fungi", 3⟩] = [("2024-01-01", "00:00")] := by
      decide
    rw [transform, hk, List.map_cons, List.map_nil]
    congr 1
    simp only [mkWideRow, Row.mk.injEq]
    refine ⟨trivial, trivial, ?_, ?_, ?_, ?_, ?_⟩
    · rw [colValue, if_pos (by decide), cell]
      have h : rowsAt [⟨"2024-01-01", "00:00", "Bacteria", (10 : ℚ)⟩,
          ⟨"2024-01-01", "00:00", "Fungi", 3⟩] "2024-01-01" "00:00" "Bacteria" =
          [⟨"2024-01-01", "00:00", "Bacteria", 10⟩] := by decide
      rw [h]
      norm_num
    · rw [colValue, if_pos (by decide), cell]
      have h : rowsAt [⟨"2024-01-01", "00:00", "Bacteria", (10 : ℚ)⟩,
          ⟨"2024-01-01", "00:00", "Fungi", 3⟩] "2024-01-01" "00:00" "Fungi" =
          [⟨"2024-01-01", "00:00", "Fungi", 3⟩] := by decide
      rw [h]
      norm_num
    · rw [colValue, if_neg (by decide)]
    · rw [colValue, if_neg (by decide)]
    · rw [colValue, if_neg (by decide)]

/-- Witness for C4's conditional part at a concrete empty batch. -/
theorem transform_pivot_fill_project_witness :
    rowsAt [] "2024-01-01" "00:00" "Pollen" = [] ∧
    colValue [] "2024-01-01" "00:00" "Pollen" = 0 :=
  ⟨rfl, transform_pivot_fill_project.2.1 [] "2024-01-01" "00:00" "Pollen" rfl⟩

theorem sortKeys_singleton (k : HistKey) : sortKeys [k] = [k] :=
  List.perm_singleton.mp (List.perm_insertionSort keyLe [k])

/-- Claim C9: two long rows sharing the same (date, time,
classification) triple pivot to a single wide row whose field for that
classification is the arithmetic mean of their concentrations
(pivot_table's default aggregation), not the value of either row. -/
theorem transform_duplicate_mean :
    (∀ d t : String, ∀ c1 c2 : ℚ,
        transform [⟨d, t, "Bacteria", c1⟩, ⟨d, t, "Bacteria", c2⟩] =
          [⟨d, t, (c1 + c2) / 2, 0, 0, 0, 0⟩]) ∧
    ∀ d t : String, ∀ c1 c2 : ℚ, c1 ≠ c2 →
      (transform [⟨d, t, "Bacteria", c1⟩, ⟨d, t, "Bacteria", c2⟩]).map
          Row.Bacteria ≠ [c1] ∧
      (transform [⟨d, t, "Bacteria", c1⟩, ⟨d, t, "Bacteria", c2⟩]).map
          Row.Bacteria ≠ [c2] := by
  have hmain : ∀ d t : String, ∀ c1 c2 : ℚ,
      transform [⟨d, t, "Bacteria", c1⟩, ⟨d, t, "Bacteria", c2⟩] =
        [⟨d, t, (c1 + c2) / 2, 0, 0, 0, 0⟩] := by
    intro d t c1 c2
    have hbl : batchLabels [⟨d, t, "Bacteria", c1⟩, ⟨d, t, "Bacteria", c2⟩] =
        ["Bacteria"] := rfl
    have hbk : batchKeys [⟨d, t, "Bacteria", c1⟩, ⟨d, t, "Bacteria", c2⟩] =
        [(d, t)] := by
      rw [batchKeys]
      show sortKeys ([(d, t), (d, t)].dedup) = [(d, t)]
      rw [List.dedup_cons_of_mem (List.mem_singleton.mpr rfl),
        List.dedup_cons_of_not_mem (by simp), List.dedup_nil, sortKeys_singleton]
    have hrows : rowsAt [⟨d, t, "Bacteria", c1⟩, ⟨d, t, "Bacteria", c2⟩]
        d t "Bacteria" = [⟨d, t, "Bacteria", c1⟩, ⟨d, t, "Bacteria", c2⟩] := by
      simp [rowsAt]
    rw [transform, hbk, List.map_cons, List.map_nil]
    congr 1
    simp only [mkWideRow, Row.mk.injEq]
    refine ⟨trivial, trivial, ?_, ?_, ?_, ?_, ?_⟩
    · rw [colValue, hbl, if_pos (List.mem_singleton.mpr rfl), cell, hrows]
      simp
      try ring
    · rw [colValue, hbl, if_neg (by decide)]
    · rw [colValue, hbl, if_neg (by decide)]
    · rw [colValue, hbl, if_neg (by decide)]
    · rw [colValue, hbl, if_neg (by decide)]
  refine ⟨hmain, fun d t c1 c2 hne => ?_⟩
  rw [hmain]
  constructor
  · intro h
    have heq : (c1 + c2) / 2 = c1 := by simpa using h
    exact hne (by linarith)
  · intro h
    have heq : (c1 + c2) / 2 = c2 := by simpa using h
    exact hne (by linarith)

/-- Witness for C9 at concrete duplicate concentrations 10 and 20. -/
theorem transform_duplicate_mean_witness :
    (10 : ℚ) ≠ 20 ∧
    (transform [⟨"2024-01-01", "00:00", "Bacteria", 10⟩,
        ⟨"2024-01-01", "00:00", "Bacteria", 20⟩]).map Row.Bacteria ≠
      [(10 : ℚ)] :=
  ⟨by norm_num,
    (transform_duplicate_mean.2 "2024-01-01" "00:00" 10 20 (by norm_num)).1⟩

/-! ## Claims about loading and the iteration control flow -/

/-- Claim C7: loading the persisted history returns the empty
canonical table when the file is absent, unreadable, or missing the
mandatory Date / Time columns, and the file's content otherwise; the
loader is a total function of the file state, so a corrupt or missing
history cannot halt startup. -/
theorem load_existing_history_spec :
    load_existing_history none = emptyHistory ∧
    (∀ m, load_existing_history (some (Except.error m)) = emptyHistory) ∧
    (∀ df : RawTable, ("Date" ∉ df.cols ∨ "Time" ∉ df.cols) →
        load_existing_history (some (Except.ok df)) = emptyHistory) ∧
    ∀ df : RawTable, "Date" ∈ df.cols → "Time" ∈ df.cols →
      load_existing_history (some (Except.ok df)) = df := by
  refine ⟨rfl, fun m => rfl, ?_, ?_⟩
  · intro df h
    show (if "Date" ∈ df.cols ∧ "Time" ∈ df.cols then df else emptyHistory) =
      emptyHistory
    rw [if_neg]
    rintro ⟨h1, h2⟩
    rcases h with h | h
    · exact h h1
    · exact h h2
  · intro df h1 h2
    show (if "Date" ∈ df.cols ∧ "Time" ∈ df.cols then df else emptyHistory) = df
    rw [if_pos ⟨h1, h2⟩]

/-- Witness for C7 at a concrete malformed and a concrete well-formed
file. -/
theorem load_existing_history_spec_witness :
    ("Date" ∉ (RawTable.mk ["Time"] []).cols ∨
      "Time" ∉ (RawTable.mk ["Time"] []).cols) ∧
    load_existing_history (some (Except.ok (RawTable.mk ["Time"] []))) =
      emptyHistory ∧
    "Date" ∈ (RawTable.mk historyColumns [["2024-01-01"]]).cols ∧
    "Time" ∈ (RawTable.mk historyColumns [["2024-01-01"]]).cols ∧
    load_existing_history
        (some (Except.ok (RawTable.mk historyColumns [["2024-01-01"]]))) =
      RawTable.mk historyColumns [["2024-01-01"]] :=
  ⟨Or.inl (by decide),
    load_existing_history_spec.2.2.1 (RawTable.mk ["Time"] [])
      (Or.inl (by decide)),
    by decide, by decide,
    load_existing_history_spec.2.2.2 (RawTable.mk historyColumns
      [["2024-01-01"]]) (by decide) (by decide)⟩

/-! ## Claim C5: exceptions during the atomic persist

In the source, save_atomic is called at line 133, inside the try block
opened at line 80, whose handler at lines 145-148 catches every
Exception; a persist failure therefore does not terminate the
process. -/

def cexBatch : Batch where
  cols := requiredCols
  long := [⟨"2024-01-01", "00:00", "Bacteria", 10⟩]

def cexEnv : Env where
  invoke := InvokeResult.ok
  readError := none
  saveOk := false

def cexState : LoopState where
  master := []
  histFile := some []
  outFile := some cexBatch

/-- Counterexample to claim C5 as stated: with the staged file present,
the read succeeding, the required columns present and the atomic
persist failing, the iteration's outcome is a caught exception and is
not fatal — the process continues — while the canonical file keeps its
last-good content. -/
theorem save_failure_not_fatal_cex :
    (runIteration cexEnv cexState).2 =
      IterOutcome.exceptionCaught "save failed" ∧
    (runIteration cexEnv cexState).2.isFatal = false ∧
    (runIteration cexEnv cexState).1.histFile = cexState.histFile :=
  ⟨rfl, rfl, rfl⟩

/-- Claim C5 amended: an exception during the atomic persist is inside
the loop iteration's error-containment scope: the handler catches it,
the outcome is never fatal, the loop continues, and the on-disk
history keeps its last-good state; the only fatal path of an iteration
is a launch failure of the external process, which the
CalledProcessError handler does not cover. -/
theorem save_failure_contained (env : Env) (st : LoopState) (data : Batch)
    (hout : st.outFile = some data) (hinv : env.invoke = InvokeResult.ok)
    (hread : env.readError = none) (hne : data.long.isEmpty = false)
    (hcols : hasRequiredCols data.cols = true) (hsave : env.saveOk = false) :
    (runIteration env st).2 = IterOutcome.exceptionCaught "save failed" ∧
    (runIteration env st).2.isFatal = false ∧
    (runIteration env st).1.histFile = st.histFile ∧
    ∀ env2 st2, ((runIteration env2 st2).2).isFatal = true →
      ∃ m, env2.invoke = InvokeResult.launchError m := by
  rcases env with ⟨inv, re, so⟩
  rcases st with ⟨mst, hf, of⟩
  simp only at hinv hread hsave hout
  subst hinv; subst hread; subst hsave; subst hout
  refine ⟨?_, ?_, ?_, ?_⟩
  · simp [runIteration, iterBody, hne, hcols]
  · simp [runIteration, iterBody, hne, hcols, IterOutcome.isFatal]
  · simp [runIteration, iterBody, hne, hcols, save_atomic]
  · intro env2 st2 hf2
    rcases env2 with ⟨inv2, re2, so2⟩
    cases inv2 with
    | launchError m => exact ⟨m, rfl⟩
    | calledProcessError m =>
      simp [runIteration, IterOutcome.isFatal] at hf2
    | ok =>
      exfalso
      rcases st2 with ⟨m2, h2, o2⟩
      cases o2 with
      | none => simp [runIteration, IterOutcome.isFatal] at hf2
      | some data2 =>
        cases hib : iterBody ⟨InvokeResult.ok, re2, so2⟩ ⟨m2, h2, some data2⟩
            data2 with
        | ok st3 =>
          simp [runIteration, hib, IterOutcome.isFatal] at hf2
        | error p =>
          simp [runIteration, hib, IterOutcome.isFatal] at hf2

/-- Witness for the amended C5 at a concrete failing persist. -/
theorem save_failure_contained_witness :
    cexState.outFile = some cexBatch ∧
    cexEnv.invoke = InvokeResult.ok ∧
    cexEnv.readError = none ∧
    cexBatch.long.isEmpty = false ∧
    hasRequiredCols cexBatch.cols = true ∧
    cexEnv.saveOk = false ∧
    ((runIteration cexEnv cexState).2 =
        IterOutcome.exceptionCaught "save failed" ∧
      (runIteration cexEnv cexState).2.isFatal = false ∧
      (runIteration cexEnv cexState).1.histFile = cexState.histFile ∧
      ∀ env2 st2, ((runIteration env2 st2).2).isFatal = true →
        ∃ m, env2.invoke = InvokeResult.launchError m) :=
  ⟨rfl, rfl, rfl, rfl, by decide, rfl,
    save_failure_contained cexEnv cexState cexBatch rfl rfl rfl rfl
      (by decide) rfl⟩

/-- Claim C8: an iteration whose external invocation exits non-zero,
or whose batch file lacks one of the required columns, performs no
merge and no save: the in-memory master table and the canonical
history file are exactly as before, and the iteration ends with a
non-propagating outcome. -/
theorem iteration_skip_frame (env : Env) (st : LoopState) :
    (∀ m, env.invoke = InvokeResult.calledProcessError m →
        runIteration env st = (st, IterOutcome.invokeFailed m)) ∧
    ∀ data : Batch, env.invoke = InvokeResult.ok → st.outFile = some data →
      env.readError = none → (∃ c ∈ requiredCols, c ∉ data.cols) →
      (runIteration env st).1.master = st.master ∧
      (runIteration env st).1.histFile = st.histFile ∧
      (runIteration env st).2 = IterOutcome.completed := by
  constructor
  · intro m h
    rcases env with ⟨inv, re, so⟩
    simp only at h
    subst h
    rfl
  · intro data hinv hout hread hmiss
    have hcols : hasRequiredCols data.cols = false := by
      rcases hmiss with ⟨c, hc1, hc2⟩
      by_contra hb
      rw [Bool.not_eq_false] at hb
      exact hc2 (of_decide_eq_true (List.all_eq_true.mp hb c hc1))
    rcases env with ⟨inv, re, so⟩
    rcases st with ⟨mst, hf, of⟩
    simp only at hinv hout hread
    subst hinv; subst hout; subst hread
    cases hemp : data.long.isEmpty <;>
      simp [runIteration, iterBody, hemp, hcols]

def c8Batch : Batch where
  cols := ["date", "time"]
  long := [⟨"2024-01-01", "00:00", "Bacteria", 1⟩]

def c8Env : Env where
  invoke := InvokeResult.ok
  readError := none
  saveOk := true

def c8State : LoopState where
  master := []
  histFile := some []
  outFile := some c8Batch

/-- Witness for C8 at a concrete batch missing the conc column. -/
theorem iteration_skip_frame_witness :
    (runIteration c8Env c8State).1.master = c8State.master ∧
    (runIteration c8Env c8State).1.histFile = c8State.histFile ∧
    (runIteration c8Env c8State).2 = IterOutcome.completed :=
  (iteration_skip_frame c8Env c8State).2 c8Batch rfl rfl rfl
    ⟨"conc", by decide, by decide⟩

/-- Claim C10: when the staged batch file exists, it is deleted
exactly when the invocation succeeded and its reading and processing
completed without raising — including the empty-content and the
missing-required-columns cases — and it is left in place when the read
raises, when the persist raises, or when the invocation failed. -/
theorem staged_file_cleanup (env : Env) (st : LoopState) (data : Batch)
    (hout : st.outFile = some data) :
    (∀ m, env.invoke = InvokeResult.calledProcessError m →
        (runIteration env st).1.outFile = st.outFile) ∧
    (∀ m, env.invoke = InvokeResult.launchError m →
        (runIteration env st).1.outFile = st.outFile) ∧
    (env.invoke = InvokeResult.ok →
      (∀ m, env.readError = some m →
          (runIteration env st).1.outFile = st.outFile) ∧
      (env.readError = none → data.long.isEmpty = true →
          (runIteration env st).1.outFile = none) ∧
      (env.readError = none → hasRequiredCols data.cols = false →
          (runIteration env st).1.outFile = none) ∧
      (env.readError = none → data.long.isEmpty = false →
          hasRequiredCols data.cols = true → env.saveOk = true →
          (runIteration env st).1.outFile = none) ∧
      (env.readError = none → data.long.isEmpty = false →
          hasRequiredCols data.cols = true → env.saveOk = false →
          (runIteration env st).1.outFile = st.outFile)) := by
  rcases env with ⟨inv, re, so⟩
  rcases st with ⟨mst, hf, of⟩
  simp only at hout
  subst hout
  refine ⟨?_, ?_, ?_⟩
  · intro m h
    simp only at h
    subst h
    rfl
  · intro m h
    simp only at h
    subst h
    rfl
  · intro hinv
    simp only at hinv
    subst hinv
    refine ⟨?_, ?_, ?_, ?_, ?_⟩
    · intro m h
      simp only at h
      subst h
      rfl
    · intro hre hemp
      simp only at hre
      subst hre
      simp [runIteration, iterBody, hemp]
    · intro hre hcols
      simp only at hre
      subst hre
      cases hemp : data.long.isEmpty <;>
        simp [runIteration, iterBody, hemp, hcols]
    · intro hre hemp hcols hso
      simp only at hre hso
      subst hre; subst hso
      simp [runIteration, iterBody, hemp, hcols]
    · intro hre hemp hcols hso
      simp only at hre hso
      subst hre; subst hso
      simp [runIteration, iterBody, hemp, hcols]

def c10Batch : Batch where
  cols := requiredCols
  long := []

def c10Env : Env where
  invoke := InvokeResult.ok
  readError := none
  saveOk := true

def c10State : LoopState where
  master := []
  histFile := some []
  outFile := some c10Batch

/-- Witness for C10 at a concrete empty batch file, which is removed. -/
theorem staged_file_cleanup_witness :
    (runIteration c10Env c10State).1.outFile = none :=
  (((staged_file_cleanup c10Env c10State c10Batch rfl).2.2 rfl).2.1) rfl rfl

end Bioaerosol
